import Mathlib

/-!
Verification of the retry-block library: a shallow embedding of its delay
strategies, bounding combinator, retry-execution protocol, and persistent
retry handle, with theorems settling the specified properties.

Durations are modelled as natural numbers of nanoseconds (Rust's
`std::time::Duration` is `u64` seconds plus sub-second nanoseconds, so the
maximum representable value is `u64::MAX * 10^9 + 999_999_999` nanoseconds).
The `Exponential` strategy, whose internal arithmetic in the source is done
in `f64` seconds, is modelled over exact rationals (the idealization the
spec appeals to with "within floating rounding").
-/

namespace RetryBlock

/-- Maximum representable duration in nanoseconds:
`Duration::MAX = u64::MAX` seconds plus `999_999_999` nanoseconds. -/
def durationMax : Nat := 18446744073709551615 * 1000000000 + 999999999

/-- Models `Duration::checked_add`: `none` when the sum is not representable. -/
def checkedAdd (a b : Nat) : Option Nat :=
  if a + b ≤ durationMax then some (a + b) else none

/-- Models `Duration::saturating_add`: clamps the sum at `Duration::MAX`. -/
def saturatingAdd (a b : Nat) : Nat := min (a + b) durationMax

/-- The tri-state outcome of one attempt (`src/lib.rs`): success, transient
failure (retry), or permanent failure (stop at once). -/
inductive OperationResult (T E : Type) where
  | Ok : T → OperationResult T E
  | Retry : E → OperationResult T E
  | Err : E → OperationResult T E
deriving DecidableEq

/-- Observable behaviour of one run of the retry loop: the returned result,
how many times the operation was invoked, how many times the delay iterator
was pulled (`it.next()`), and the sequence of sleeps performed. -/
structure RetryTrace (T E : Type) where
  result : Except E T
  invocations : Nat
  pulls : Nat
  sleeps : List Nat

/-- The retry loop of the `retry!` macro (`src/macro.rs`, also the body of
`retry_fn` in `src/lib.rs`): invoke the operation; on `Ok` or `Err` stop;
on `Retry`, pull the next delay — sleep and loop if one is available,
otherwise return the transient error. The operation is modelled as a
function of the attempt index (the expansion of the `FnMut` closure), and
the delay iterator as the list of values it has left to yield. -/
def retryGo (op : Nat → OperationResult T E) (i : Nat) (delays : List Nat) :
    RetryTrace T E :=
  match op i with
  | .Ok v => ⟨.ok v, 1, 0, []⟩
  | .Err e => ⟨.error e, 1, 0, []⟩
  | .Retry e =>
    match delays with
    | [] => ⟨.error e, 1, 1, []⟩
    | d :: rest =>
      let t := retryGo op (i + 1) rest
      ⟨t.result, t.invocations + 1, t.pulls + 1, d :: t.sleeps⟩

/-- Models `retry_fn` (`src/lib.rs`): the result of the retry loop. -/
def retry_fn (delays : List Nat) (op : Nat → OperationResult T E) :
    Except E T :=
  (retryGo op 0 delays).result

/-- Concrete operation for witnesses: fails transiently twice (errors `0`
and `1`), then succeeds with `42`. -/
def twoRetriesThenOk : Nat → OperationResult Nat Nat :=
  fun i => if i < 2 then .Retry i else .Ok 42

/-- Concrete operation for witnesses: fails permanently at once. -/
def immediateErr : Nat → OperationResult Nat Nat := fun _ => .Err 7

/-- State of the `Bounded` combinator (`src/delay/mod.rs`): the inner
iterator (modelled by the list of values it has left to yield), the
accumulated sum `acc`, and the budget `max`. -/
structure Bounded where
  inner : List Nat
  acc : Nat
  max : Nat
deriving DecidableEq

/-- Models `Bounded::new`: wraps an inner sequence with `acc = 0`. -/
def Bounded.new (inner : List Nat) (mx : Nat) : Bounded := ⟨inner, 0, mx⟩

/-- Models `Bounded::next` (`src/delay/mod.rs`): pulls `self.inner.next()` and
filters it: if `self.acc.checked_add(next)` succeeds, the accumulator is
assigned the new sum and the value passes the filter exactly when
`self.acc <= self.max`; if the checked add overflows, the filter rejects
the value and the accumulator is left unchanged. The inner iterator is
always advanced, and on a successful checked add the accumulator is
updated even when the value is then filtered out. -/
def Bounded.next (s : Bounded) : Option Nat × Bounded :=
  match s.inner with
  | [] => (none, s)
  | n :: rest =>
    match checkedAdd s.acc n with
    | none => (none, ⟨rest, s.acc, s.max⟩)
    | some a =>
      if a ≤ s.max then (some n, ⟨rest, a, s.max⟩)
      else (none, ⟨rest, a, s.max⟩)

/-- The state of a `Bounded` combinator after `k` pulls. -/
def Bounded.stateN (s : Bounded) : Nat → Bounded
  | 0 => s
  | k + 1 => (Bounded.next (Bounded.stateN s k)).2

/-- The value produced by the `(k+1)`-th pull of a `Bounded` combinator. -/
def Bounded.out (s : Bounded) (k : Nat) : Option Nat :=
  (Bounded.next (Bounded.stateN s k)).1

/-- The values yielded by `fuel` successive pulls of a `Bounded`
combinator. -/
def Bounded.runYields : Nat → Bounded → List Nat
  | 0, _ => []
  | fuel + 1, s =>
    match Bounded.next s with
    | (some n, s') => n :: Bounded.runYields fuel s'
    | (none, s') => Bounded.runYields fuel s'

/-- A random `Range` delay strategy (`src/delay/random.rs`): a uniform
distribution over milliseconds, inclusive or exclusive of the upper end. -/
structure Range where
  lo : Nat
  hi : Nat
  inclusive : Bool
deriving DecidableEq

/-- Models `Range::from_millis_exclusive`, which delegates to
`rand::distributions::Uniform::new(minimum, maximum)`, whose contract is to
panic unless `low < high`; `none` models the construction-time panic. -/
def Range.from_millis_exclusive (minimum maximum : Nat) : Option Range :=
  if minimum < maximum then some ⟨minimum, maximum, false⟩ else none

/-- Models `Range::from_millis_inclusive`, which delegates to
`rand::distributions::Uniform::new_inclusive(minimum, maximum)`, whose
contract is to panic unless `low <= high`; `none` models the
construction-time panic. -/
def Range.from_millis_inclusive (minimum maximum : Nat) : Option Range :=
  if minimum ≤ maximum then some ⟨minimum, maximum, true⟩ else none

/-- State of the `Fibonacci` strategy (`src/delay/mod.rs`): the current
and next delay, both durations. -/
structure Fibonacci where
  curr : Nat
  next : Nat
deriving DecidableEq

/-- Models `Fibonacci::exact`: both fields start at the given duration. -/
def Fibonacci.exact (d : Nat) : Fibonacci := ⟨d, d⟩

/-- Models the `Iterator` method `next` of `Fibonacci`: returns `curr`, then
`(curr, next) = (next, curr.saturating_add(next))`. (Named `pull` because
the struct already has a field called `next`.) -/
def Fibonacci.pull (s : Fibonacci) : Nat × Fibonacci :=
  (s.curr, ⟨s.next, saturatingAdd s.curr s.next⟩)

/-- The state of a `Fibonacci` strategy after `n` pulls. -/
def Fibonacci.stateN (s : Fibonacci) : Nat → Fibonacci
  | 0 => s
  | n + 1 => ((Fibonacci.stateN s n).pull).2

/-- The `n`-th value yielded by a `Fibonacci` strategy (counting from 0). -/
def Fibonacci.value (s : Fibonacci) (n : Nat) : Nat :=
  ((Fibonacci.stateN s n).pull).1

/-- The bound `2^64` seconds: the source's `MAX_NANOS_F64` constant
(`(u64::MAX + 1) * 10^9` nanoseconds, exactly representable in `f64`)
divided by `10^9` nanoseconds per second. -/
def maxSecsQ : ℚ := 18446744073709551616

/-- State of the `Exponential` strategy (`src/delay/mod.rs`): the current
delay in seconds and the multiplication factor. The source stores a
`Duration` and an `f64` and does the growth arithmetic in `f64` seconds;
both are modelled as exact rationals. -/
structure Exponential where
  current : ℚ
  factor : ℚ
deriving DecidableEq

/-- Models `Exponential::exact_with_factor`: stores the base and factor unchanged. -/
def Exponential.exact_with_factor (base factor : ℚ) : Exponential :=
  ⟨base, factor⟩

/-- The local `try_from_secs_f64` helper inside `<Exponential as
Iterator>::next`: `none` when `secs * 10^9` nanoseconds is non-finite,
negative, or at least `MAX_NANOS_F64` — over exact rationals this is
exactly the condition `secs < 0 ∨ 2^64 ≤ secs`. -/
def try_from_secs_f64 (secs : ℚ) : Option ℚ :=
  if 0 ≤ secs ∧ secs < maxSecsQ then some secs else none

/-- Models the `Iterator` method `next` of `Exponential`: returns `current`, then sets
`current = try_from_secs_f64(current * factor).unwrap_or(current)`. -/
def Exponential.pull (s : Exponential) : ℚ × Exponential :=
  (s.current, ⟨(try_from_secs_f64 (s.current * s.factor)).getD s.current,
    s.factor⟩)

/-- The state of an `Exponential` strategy after `n` pulls. -/
def Exponential.stateN (s : Exponential) : Nat → Exponential
  | 0 => s
  | n + 1 => ((Exponential.stateN s n).pull).2

/-- The `n`-th value yielded by an `Exponential` strategy (counting
from 0). -/
def Exponential.value (s : Exponential) (n : Nat) : ℚ :=
  ((Exponential.stateN s n).pull).1

/-- Models `jitter` (`src/delay/random.rs`): scales a duration by a uniform random
draw `q` from `[0, 1)` — `duration.mul_f64(rng.gen())`. Randomness is made
explicit: the draw is a parameter. The sub-nanosecond rounding of
`mul_f64` is modelled as truncation; no claim depends on the rounding
direction. -/
def jitter (d : Nat) (q : ℚ) : Nat := (⌊(d : ℚ) * q⌋).toNat

/-- Models `jitter` for the rational-seconds model of `Exponential`: exact
scaling of the base by the draw. -/
def jitterQ (d : ℚ) (q : ℚ) : ℚ := d * q

/-- State of the `Fixed` strategy (`src/delay/mod.rs`): one duration. -/
structure Fixed where
  duration : Nat
deriving DecidableEq

/-- Randomized constructors consume draws from an explicit random stream
`rng` at a cursor position `pos`; each returns the new cursor so that the
number of draws consumed is observable. `Fixed::new` jitters the base once
at construction. -/
def Fixed.new (d : Nat) (rng : Nat → ℚ) (pos : Nat) : Fixed × Nat :=
  (⟨jitter d (rng pos)⟩, pos + 1)

/-- Models `Fixed::exact`: stores the duration unchanged. -/
def Fixed.exact (d : Nat) : Fixed := ⟨d⟩

/-- Models the `From` conversion from `Duration` to `Fixed` (`src/delay/mod.rs` lines 251-255):
builds the struct literally from the duration — it does not delegate to
`Fixed::new` and touches no randomness. It takes the random stream as an
unused argument only so that "consumes no randomness" is an explicit
conclusion rather than a typing accident. -/
def Fixed.fromDuration (d : Nat) (_rng : Nat → ℚ) (pos : Nat) :
    Fixed × Nat :=
  (⟨d⟩, pos)

/-- Models the `Iterator` method `next` of `Fixed`: always returns the stored duration and
leaves the state unchanged. -/
def Fixed.pull (s : Fixed) : Nat × Fixed := (s.duration, s)

/-- The state of a `Fixed` strategy after `n` pulls. -/
def Fixed.stateN (s : Fixed) : Nat → Fixed
  | 0 => s
  | n + 1 => ((Fixed.stateN s n).pull).2

/-- The `n`-th value yielded by a `Fixed` strategy. -/
def Fixed.value (s : Fixed) (n : Nat) : Nat := ((Fixed.stateN s n).pull).1

/-- Models `Exponential::with_factor`: jitters the base (one random draw) and
stores the factor. -/
def Exponential.with_factor (base factor : ℚ) (rng : Nat → ℚ) (pos : Nat) :
    Exponential × Nat :=
  (⟨jitterQ base (rng pos), factor⟩, pos + 1)

/-- The default factor used by `Exponential::new`: the base duration's
whole-millisecond count as a float (`duration.as_millis() as f64`). -/
def Exponential.defaultFactor (d : ℚ) : ℚ := ((⌊d * 1000⌋ : ℤ) : ℚ)

/-- Models `Exponential::new`: `Self::with_factor(duration, duration.as_millis()
as f64)` — jitters the base. -/
def Exponential.new (d : ℚ) (rng : Nat → ℚ) (pos : Nat) :
    Exponential × Nat :=
  Exponential.with_factor d (Exponential.defaultFactor d) rng pos

/-- Models the `From` conversion from `Duration` to `Exponential` (`src/delay/mod.rs` lines
119-123): delegates to `Exponential::new`, hence jitters. -/
def Exponential.fromDuration (d : ℚ) (rng : Nat → ℚ) (pos : Nat) :
    Exponential × Nat :=
  Exponential.new d rng pos

/-- Models `Fibonacci::new`: jitters the base once and stores the jittered value
in both fields. -/
def Fibonacci.new (d : Nat) (rng : Nat → ℚ) (pos : Nat) :
    Fibonacci × Nat :=
  (⟨jitter d (rng pos), jitter d (rng pos)⟩, pos + 1)

/-- Models the `From` conversion from `Duration` to `Fibonacci` (`src/delay/mod.rs` lines
199-203): delegates to `Fibonacci::new`, hence jitters. -/
def Fibonacci.fromDuration (d : Nat) (rng : Nat → ℚ) (pos : Nat) :
    Fibonacci × Nat :=
  Fibonacci.new d rng pos

/-- Persistence status (`src/persist/mod.rs`). -/
inductive Status (O E : Type) where
  | Pending : Status O E
  | Success : O → Status O E
  | Failure : E → Status O E
deriving DecidableEq

/-- One observable event of a persistent retry episode: a durable
`save_status` call, an invocation of the operation, or a sleep. -/
inductive Event (O E : Type) where
  | save : Status O E → Event O E
  | invoke : Event O E
  | sleep : Nat → Event O E
deriving DecidableEq

/-- The retry loop inside `RetryHandle::retry` (`src/persist/mod.rs`,
lines 219-231; the same loop as the `retry!` macro but with
`tokio::time::sleep`): produces the list of events it performs and the
final result. The case split on the remaining delays is hoisted above the
match on the outcome so that the recursion is structural; the branches
agree with the source: `Ok`/`Err` stop after the invocation regardless of
remaining delays, and a `Retry` either sleeps and loops or, with the
iterator exhausted, stops with that transient error. -/
def retryLoop (op : Nat → OperationResult O E) :
    Nat → List Nat → List (Event O E) × Except E O
  | i, [] =>
    match op i with
    | .Ok v => ([.invoke], .ok v)
    | .Err e => ([.invoke], .error e)
    | .Retry e => ([.invoke], .error e)
  | i, d :: rest =>
    match op i with
    | .Ok v => ([.invoke], .ok v)
    | .Err e => ([.invoke], .error e)
    | .Retry _ =>
      let t := retryLoop op (i + 1) rest
      (.invoke :: .sleep d :: t.1, t.2)

/-- The terminal status computed from the loop result
(`src/persist/mod.rs` lines 233-236). -/
def statusOfResult : Except E O → Status O E
  | .ok v => .Success v
  | .error e => .Failure e

/-- Models `RetryHandle::retry` (`src/persist/mod.rs` lines 207-241) as its
sequence of observable events: save `Pending`, run the retry loop (one
fresh cursor cloned from the duration template, modelled by the list
`delays`), then save the terminal status. -/
def RetryHandle.retry (delays : List Nat)
    (op : Nat → OperationResult O E) : List (Event O E) :=
  let t := retryLoop op 0 delays
  Event.save Status.Pending :: t.1 ++ [Event.save (statusOfResult t.2)]

/-- Projects the status out of a save event. -/
def saveOf : Event O E → Option (Status O E)
  | .save st => some st
  | _ => none

/-- Shared-lock state of `RetryHandle::retry_stream` (`src/persist/mod.rs`
lines 188-203) specialised to two episodes A and B: who currently holds
the `tokio::sync::Mutex` around the handle, and each episode's program
counter. An episode's program is: acquire the lock (counter 0 to 1),
perform its protocol actions 1 to `len` (save `Pending`, invocations,
sleeps, terminal save), and release the lock together with its last
action — mirroring `handle.lock().await.retry(id, input, operation).await`,
where the mutex guard is a temporary that lives until the whole `retry`
future has completed. -/
structure LockState where
  owner : Option Bool
  pcA : Nat
  pcB : Nat
deriving DecidableEq

/-- Both episodes not yet started, lock free. -/
def lockInit : LockState := ⟨none, 0, 0⟩

/-- One scheduler step of episode `me` (`false` = A, `true` = B) under the
per-episode locking discipline of `retry_stream`: starting requires the
lock to be free; every protocol action requires the episode to hold the
lock; the lock is released only after the last action. `none` means the
episode cannot make a step from this state. -/
def epStep (len : Nat) (me : Bool) (s : LockState) : Option LockState :=
  if me then
    if s.pcB = 0 then
      if s.owner = none then some ⟨some true, s.pcA, 1⟩ else none
    else if s.pcB < len then
      if s.owner = some true then some ⟨s.owner, s.pcA, s.pcB + 1⟩ else none
    else if s.pcB = len then
      if s.owner = some true then some ⟨none, s.pcA, s.pcB + 1⟩ else none
    else none
  else
    if s.pcA = 0 then
      if s.owner = none then some ⟨some false, 1, s.pcB⟩ else none
    else if s.pcA < len then
      if s.owner = some false then some ⟨s.owner, s.pcA + 1, s.pcB⟩ else none
    else if s.pcA = len then
      if s.owner = some false then some ⟨none, s.pcA + 1, s.pcB⟩ else none
    else none

/-- Runs a schedule (a list of episode choices) from a state; `none` if
some chosen episode cannot step. -/
def runSched (len : Nat) : List Bool → LockState → Option LockState
  | [], s => some s
  | b :: rest, s =>
    match epStep len b s with
    | none => none
    | some s' => runSched len rest s'

/-- Helper: if the operation answers `Retry` for the first `k` attempts
after `j` and then `Ok v`, and at least `k` delays remain, the loop
invokes the operation `k + 1` times, pulls and sleeps through the first
`k` delays, and returns the success value. -/
theorem retryGo_ok_of_retries (op : Nat → OperationResult T E)
    (err : Nat → E) (v : T) :
    ∀ (k j : Nat) (delays : List Nat),
      (∀ i, i < k → op (j + i) = .Retry (err (j + i))) →
      op (j + k) = .Ok v → k ≤ delays.length →
      retryGo op j delays = ⟨.ok v, k + 1, k, delays.take k⟩ := by
  intro k
  induction k with
  | zero =>
    intro j delays _ hok _
    rw [Nat.add_zero] at hok
    simp [retryGo, hok]
  | succ k ih =>
    intro j delays hr hok hlen
    have h0 : op j = .Retry (err j) := by
      have := hr 0 (Nat.succ_pos k)
      simpa using this
    cases delays with
    | nil => simp at hlen
    | cons d rest =>
      have hr' : ∀ i, i < k → op (j + 1 + i) = .Retry (err (j + 1 + i)) := by
        intro i hi
        have heq : j + (i + 1) = j + 1 + i := by omega
        have := hr (i + 1) (by omega)
        rwa [heq] at this
      have hok' : op (j + 1 + k) = .Ok v := by
        have heq : j + (k + 1) = j + 1 + k := by omega
        rwa [heq] at hok
      have hlen' : k ≤ rest.length := by
        simp at hlen
        omega
      have ih' := ih (j + 1) rest hr' hok' hlen'
      simp [retryGo, h0, ih']

/-- Helper: if the operation answers `Retry` on every attempt the delay
list can reach (one per delay plus the final attempt that exhausts the
iterator), the loop invokes the operation `length + 1` times, pulls
`length + 1` times, sleeps through every delay, and returns the error of
the last invocation. -/
theorem retryGo_exhaust (op : Nat → OperationResult T E) (err : Nat → E) :
    ∀ (delays : List Nat) (j : Nat),
      (∀ i, i ≤ delays.length → op (j + i) = .Retry (err (j + i))) →
      retryGo op j delays = ⟨.error (err (j + delays.length)),
        delays.length + 1, delays.length + 1, delays⟩ := by
  intro delays
  induction delays with
  | nil =>
    intro j hr
    have h0 : op j = .Retry (err j) := by simpa using hr 0 (by simp)
    simp [retryGo, h0]
  | cons d rest ih =>
    intro j hr
    have h0 : op j = .Retry (err j) := by simpa using hr 0 (by simp)
    have hr' : ∀ i, i ≤ rest.length → op (j + 1 + i) = .Retry (err (j + 1 + i)) := by
      intro i hi
      have heq : j + (i + 1) = j + 1 + i := by omega
      have := hr (i + 1) (by simp; omega)
      rwa [heq] at this
    have ih' := ih (j + 1) hr'
    have heq : j + 1 + rest.length = j + (rest.length + 1) := by omega
    simp [retryGo, h0, ih', heq]

/-- C1: an operation that fails transiently exactly `k` times and then
succeeds is invoked `k + 1` times by the retry protocol when at least `k`
delays are available, sleeping through the first `k` delays and returning
the success value; with fewer than `k` delays it is invoked `length + 1`
times and the loop returns the last transient error produced before the
delay iterator was exhausted. -/
theorem retry_protocol_k_failures (op : Nat → OperationResult T E)
    (err : Nat → E) (k : Nat) (v : T)
    (hr : ∀ i, i < k → op i = .Retry (err i)) (hok : op k = .Ok v) :
    (∀ delays : List Nat, k ≤ delays.length →
      retryGo op 0 delays = ⟨.ok v, k + 1, k, delays.take k⟩ ∧
      retry_fn delays op = .ok v) ∧
    (∀ delays : List Nat, delays.length < k →
      retryGo op 0 delays = ⟨.error (err delays.length), delays.length + 1,
        delays.length + 1, delays⟩ ∧
      retry_fn delays op = .error (err delays.length)) := by
  constructor
  · intro delays hlen
    have h := retryGo_ok_of_retries op err v k 0 delays
      (by intro i hi; simpa using hr i hi) (by simpa using hok) hlen
    exact ⟨h, by simp [retry_fn, h]⟩
  · intro delays hlen
    have h := retryGo_exhaust op err delays 0
      (fun i hi => by simpa using hr i (by omega))
    rw [Nat.zero_add] at h
    exact ⟨h, by simp [retry_fn, h]⟩

/-- Witness for C1 at `k = 2`: with three delays the operation succeeds on
the third invocation; with one delay the loop exhausts and returns the
error of the second invocation. -/
theorem retry_protocol_k_failures_witness :
    retryGo twoRetriesThenOk 0 [7, 8, 9] = ⟨.ok 42, 3, 2, [7, 8]⟩ ∧
    retryGo twoRetriesThenOk 0 [7] = ⟨.error 1, 2, 2, [7]⟩ := by
  have h := retry_protocol_k_failures twoRetriesThenOk (fun i => i) 2 42
    (by decide) (by decide)
  exact ⟨by simpa using (h.1 [7, 8, 9] (by simp)).1,
    by simpa using (h.2 [7] (by simp)).1⟩

/-- C2: an operation whose first invocation fails permanently is invoked
exactly once; the loop never pulls the delay iterator, performs no sleep,
and returns the permanent error. -/
theorem retry_protocol_permanent_error (op : Nat → OperationResult T E)
    (e : E) (h : op 0 = .Err e) (delays : List Nat) :
    retryGo op 0 delays = ⟨.error e, 1, 0, []⟩ ∧
    retry_fn delays op = .error e := by
  have hg : retryGo op 0 delays = ⟨.error e, 1, 0, []⟩ := by
    simp [retryGo, h]
  exact ⟨hg, by simp [retry_fn, hg]⟩

/-- Witness for C2: a permanently failing operation with two delays
available is invoked once, pulls nothing, sleeps nowhere. -/
theorem retry_protocol_permanent_error_witness :
    retryGo immediateErr 0 [3, 4] = ⟨.error 7, 1, 0, []⟩ :=
  (retry_protocol_permanent_error immediateErr 7 rfl [3, 4]).1

/-- Helper: a successful checked add is the plain sum, which is
representable. -/
theorem checkedAdd_some (a b c : Nat) (h : checkedAdd a b = some c) :
    c = a + b ∧ a + b ≤ durationMax := by
  by_cases hle : a + b ≤ durationMax
  · refine ⟨?_, hle⟩
    simp [checkedAdd, hle] at h
    omega
  · simp [checkedAdd, hle] at h

/-- Helper: a checked add fails exactly when the sum is not
representable. -/
theorem checkedAdd_eq_none (a b : Nat) :
    checkedAdd a b = none ↔ durationMax < a + b := by
  unfold checkedAdd
  split
  · simp
    omega
  · simp
    omega

/-- Helper: once the accumulator exceeds the budget, one more pull of
`Bounded` yields nothing, and the accumulator stays above the budget. -/
theorem bounded_next_overbudget (s : Bounded) (h : s.max < s.acc) :
    (Bounded.next s).1 = none ∧ (Bounded.next s).2.max < (Bounded.next s).2.acc ∧
    (Bounded.next s).2.max = s.max := by
  cases s with
  | mk inner acc mx =>
    cases inner with
    | nil => exact ⟨rfl, h, rfl⟩
    | cons n rest =>
      cases hca : checkedAdd acc n with
      | none => simpa [Bounded.next, hca] using h
      | some a =>
        obtain ⟨ha, _⟩ := checkedAdd_some acc n a hca
        have hgt : ¬ a ≤ mx := by simp at h; omega
        simp only [Bounded.next, hca]
        simp [hgt]
        simp at h
        omega

/-- Helper: once the accumulator exceeds the budget, every later state of
`Bounded` still has its accumulator over the unchanged budget. -/
theorem bounded_stateN_overbudget (s : Bounded) (h : s.max < s.acc) :
    ∀ k, (Bounded.stateN s k).max < (Bounded.stateN s k).acc := by
  intro k
  induction k with
  | zero => exact h
  | succ k ih =>
    have hn := bounded_next_overbudget (Bounded.stateN s k) ih
    exact hn.2.1

/-- Helper: once the accumulator exceeds the budget, every pull of
`Bounded` yields nothing. -/
theorem bounded_out_overbudget (s : Bounded) (h : s.max < s.acc) (k : Nat) :
    Bounded.out s k = none := by
  have hst := bounded_stateN_overbudget s h k
  exact (bounded_next_overbudget (Bounded.stateN s k) hst).1

/-- Helper: the state after `k + 1` pulls is the state of the post-pull
combinator after `k` pulls. -/
theorem bounded_stateN_succ (s : Bounded) (k : Nat) :
    Bounded.stateN s (k + 1) = Bounded.stateN (Bounded.next s).2 k := by
  induction k with
  | zero => rfl
  | succ k ih =>
    show (Bounded.next (Bounded.stateN s (k + 1))).2 = _
    rw [ih]
    rfl

/-- Helper: the values yielded by any number of pulls of `Bounded` either
amount to nothing, or their sum plus the starting accumulator fits the
budget. -/
theorem bounded_runYields_sum : ∀ (fuel : Nat) (s : Bounded),
    Bounded.runYields fuel s = [] ∨
    s.acc + (Bounded.runYields fuel s).sum ≤ s.max := by
  intro fuel
  induction fuel with
  | zero => intro s; left; rfl
  | succ fuel ih =>
    intro s
    cases s with
    | mk inner acc mx =>
      cases inner with
      | nil =>
        have h := ih ⟨[], acc, mx⟩
        simpa [Bounded.runYields, Bounded.next] using h
      | cons n rest =>
        cases hca : checkedAdd acc n with
        | none =>
          have h := ih ⟨rest, acc, mx⟩
          simpa [Bounded.runYields, Bounded.next, hca] using h
        | some a =>
          obtain ⟨ha, hrep⟩ := checkedAdd_some acc n a hca
          by_cases hle : a ≤ mx
          · rcases ih ⟨rest, a, mx⟩ with hemp | hsum
            · right
              simp [Bounded.runYields, Bounded.next, hca, hle, hemp]
              omega
            · right
              simp [Bounded.runYields, Bounded.next, hca, hle]
              simp at hsum
              omega
          · rcases ih ⟨rest, a, mx⟩ with hemp | hsum
            · left
              simp [Bounded.runYields, Bounded.next, hca, hle, hemp]
            · right
              simp [Bounded.runYields, Bounded.next, hca, hle]
              simp at hsum
              omega

/-- C3: the sum of all values yielded by `Bounded::new(inner, max)` never
exceeds `max`; a value whose (representable) inclusion would push the
accumulated sum over `max` is never yielded and every subsequent pull
yields nothing; and when the very first inner value already exceeds `max`,
`Bounded` yields zero values. -/
theorem bounded_budget (inner : List Nat) (mx : Nat) :
    (∀ fuel, (Bounded.runYields fuel (Bounded.new inner mx)).sum ≤ mx) ∧
    (∀ s : Bounded, ∀ n rest a, s.inner = n :: rest →
      checkedAdd s.acc n = some a → s.max < a →
      (Bounded.next s).1 = none ∧
      (∀ k, Bounded.out (Bounded.next s).2 k = none)) ∧
    (∀ n rest, inner = n :: rest → n ≤ durationMax → mx < n →
      ∀ k, Bounded.out (Bounded.new inner mx) k = none) := by
  refine ⟨?_, ?_, ?_⟩
  · intro fuel
    rcases bounded_runYields_sum fuel (Bounded.new inner mx) with hemp | hsum
    · simp [hemp]
    · simpa [Bounded.new] using hsum
  · intro s n rest a hinner hca hgt
    have hgt' : ¬ a ≤ s.max := by omega
    have hnext : Bounded.next s = (none, ⟨rest, a, s.max⟩) := by
      cases s with
      | mk inner0 acc mx0 =>
        simp at hinner hca hgt' ⊢
        simp [Bounded.next, hinner, hca, hgt']
    refine ⟨by simp [hnext], ?_⟩
    intro k
    rw [hnext]
    exact bounded_out_overbudget ⟨rest, a, s.max⟩ hgt k
  · intro n rest hinner hrep hgt k
    have hca : checkedAdd 0 n = some n := by
      simp [checkedAdd, hrep]
    have hnext : Bounded.next (Bounded.new inner mx) = (none, ⟨rest, n, mx⟩) := by
      have hgt' : ¬ n ≤ mx := by omega
      simp [Bounded.new, Bounded.next, hinner, hca, hgt']
    cases k with
    | zero => simp [Bounded.out, Bounded.stateN, hnext]
    | succ k =>
      show (Bounded.next (Bounded.stateN (Bounded.new inner mx) (k + 1))).1 = none
      rw [bounded_stateN_succ, hnext]
      exact bounded_out_overbudget ⟨rest, n, mx⟩ hgt k

/-- Witness for C3: the bounded exponential sequence `1, 2, 4, ...` with
budget `4` yields values summing within budget; a state with accumulator
`3` and budget `4` pulls `4` without yielding it; and an inner sequence
starting at `5` with budget `4` yields nothing on its first two pulls. -/
theorem bounded_budget_witness :
    (Bounded.runYields 3 (Bounded.new [1, 2, 4] 4)).sum ≤ 4 ∧
    (Bounded.next ⟨[4], 3, 4⟩).1 = none ∧
    Bounded.out (Bounded.new [5, 1] 4) 0 = none ∧
    Bounded.out (Bounded.new [5, 1] 4) 1 = none := by
  refine ⟨(bounded_budget [1, 2, 4] 4).1 3, ?_, ?_, ?_⟩
  · exact ((bounded_budget [1, 2, 4] 4).2.1 ⟨[4], 3, 4⟩ 4 [] 7 rfl
      (by decide) (by decide)).1
  · exact (bounded_budget [5, 1] 4).2.2 5 [1] rfl (by decide) (by decide) 0
  · exact (bounded_budget [5, 1] 4).2.2 5 [1] rfl (by decide) (by decide) 1

/-- C4 counterexample: for inner sequence `[5, Duration::MAX, 3]` with
budget `Duration::MAX`, the second pull yields nothing (the checked add
overflows) but the third pull yields `3` again, because an
overflow-caused empty pull leaves the accumulator unchanged rather than
pinned at a saturated value. -/
theorem bounded_none_not_absorbing :
    Bounded.out (Bounded.new [5, durationMax, 3] durationMax) 1 = none ∧
    Bounded.out (Bounded.new [5, durationMax, 3] durationMax) 2 = some 3 := by
  constructor <;> decide

/-- C4 amended: when adding the next inner value to the accumulated sum
overflows the duration range, the pull yields nothing and leaves the
accumulator unchanged (overflow is budget exhaustion for that pull, not
wrap-around); and once a pull has yielded nothing because the successful
checked sum exceeded the budget, every subsequent pull yields nothing. -/
theorem bounded_overflow_behaviour (s : Bounded) :
    (∀ n rest, s.inner = n :: rest → checkedAdd s.acc n = none →
      Bounded.next s = (none, ⟨rest, s.acc, s.max⟩)) ∧
    (∀ n rest a, s.inner = n :: rest → checkedAdd s.acc n = some a →
      s.max < a → ∀ k, Bounded.out (Bounded.next s).2 k = none) := by
  constructor
  · intro n rest hinner hca
    cases s with
    | mk inner0 acc mx0 =>
      simp at hinner hca ⊢
      simp [Bounded.next, hinner, hca]
  · intro n rest a hinner hca hgt k
    have hgt' : ¬ a ≤ s.max := by omega
    have hnext : Bounded.next s = (none, ⟨rest, a, s.max⟩) := by
      cases s with
      | mk inner0 acc mx0 =>
        simp at hinner hca hgt' ⊢
        simp [Bounded.next, hinner, hca, hgt']
    rw [hnext]
    exact bounded_out_overbudget ⟨rest, a, s.max⟩ hgt k

/-- Witness for the amended C4: an overflow pull from accumulator `5`
against inner value `Duration::MAX` yields nothing and keeps the
accumulator at `5`; and after the sum `9` exceeded budget `4`, the next
two pulls yield nothing. -/
theorem bounded_overflow_behaviour_witness :
    Bounded.next ⟨[durationMax], 5, durationMax⟩ =
      (none, ⟨[], 5, durationMax⟩) ∧
    Bounded.out (Bounded.next ⟨[9, 1, 1], 0, 4⟩).2 0 = none ∧
    Bounded.out (Bounded.next ⟨[9, 1, 1], 0, 4⟩).2 1 = none := by
  refine ⟨(bounded_overflow_behaviour ⟨[durationMax], 5, durationMax⟩).1
      durationMax [] rfl (by decide), ?_, ?_⟩
  · exact (bounded_overflow_behaviour ⟨[9, 1, 1], 0, 4⟩).2 9 [1, 1] 9 rfl
      (by decide) (by decide) 0
  · exact (bounded_overflow_behaviour ⟨[9, 1, 1], 0, 4⟩).2 9 [1, 1] 9 rfl
      (by decide) (by decide) 1

/-- C7 counterexample: `from_millis_inclusive(5, 5)` has `min >= max` yet
constructs successfully — `rand::distributions::Uniform::new_inclusive`
only panics when `low > high`, so equal bounds give a degenerate
single-value distribution rather than a construction-time fatal error. -/
theorem range_inclusive_equal_bounds_ok :
    5 ≥ 5 ∧ Range.from_millis_inclusive 5 5 = some ⟨5, 5, true⟩ := by
  constructor
  · decide
  · rfl

/-- C7 amended: `from_millis_exclusive(min, max)` is a construction-time
fatal error exactly when `min >= max`, and `from_millis_inclusive(min,
max)` exactly when `min > max`; in particular any pair with `min > max`
is fatal for both constructors, and equal bounds are permitted by the
inclusive constructor. -/
theorem range_construction_contract (minimum maximum : Nat) :
    (Range.from_millis_exclusive minimum maximum = none ↔
      maximum ≤ minimum) ∧
    (Range.from_millis_inclusive minimum maximum = none ↔
      maximum < minimum) ∧
    (maximum < minimum →
      Range.from_millis_exclusive minimum maximum = none ∧
      Range.from_millis_inclusive minimum maximum = none) ∧
    Range.from_millis_inclusive minimum minimum =
      some ⟨minimum, minimum, true⟩ := by
  refine ⟨?_, ?_, ?_, ?_⟩
  · unfold Range.from_millis_exclusive
    split
    · simp
      omega
    · simp
      omega
  · unfold Range.from_millis_inclusive
    split
    · simp
      omega
    · simp
      omega
  · intro h
    constructor
    · have hn : ¬ minimum < maximum := by omega
      simp [Range.from_millis_exclusive, hn]
    · have hn : ¬ minimum ≤ maximum := by omega
      simp [Range.from_millis_inclusive, hn]
  · simp [Range.from_millis_inclusive]

/-- Witness for the amended C7: strictly inverted bounds are fatal for
both constructors. -/
theorem range_construction_contract_witness :
    Range.from_millis_exclusive 6 5 = none ∧
    Range.from_millis_inclusive 6 5 = none :=
  (range_construction_contract 6 5).2.2.1 (by decide)

/-- Helper: the Fibonacci recurrence is definitional: the value pulled on
attempt `n + 2` is the saturating sum of the two previous values. -/
theorem fib_recurrence (s : Fibonacci) (n : Nat) :
    Fibonacci.value s (n + 2) =
      saturatingAdd (Fibonacci.value s n) (Fibonacci.value s (n + 1)) := rfl

/-- Helper: once an exact Fibonacci sequence yields the maximum duration,
the next value is again the maximum. -/
theorem fib_sat_step (d : Nat) (n : Nat)
    (h : Fibonacci.value (Fibonacci.exact d) n = durationMax) :
    Fibonacci.value (Fibonacci.exact d) (n + 1) = durationMax := by
  cases n with
  | zero =>
    have hd : d = durationMax := h
    show (Fibonacci.exact d).next = durationMax
    simpa [Fibonacci.exact] using hd
  | succ m =>
    rw [fib_recurrence, h]
    simp only [saturatingAdd]
    omega

/-- C8: for an exact-base Fibonacci sequence, each value from the third on
is the saturating sum of the two previous values; with `8 * d` still
representable the sequence starts `d, d, 2d, 3d, 5d, 8d`; and once a value
reaches the maximum representable duration every later value is that
maximum. -/
theorem fibonacci_exact_behaviour (d : Nat) :
    (∀ n, Fibonacci.value (Fibonacci.exact d) (n + 2) =
      saturatingAdd (Fibonacci.value (Fibonacci.exact d) n)
        (Fibonacci.value (Fibonacci.exact d) (n + 1))) ∧
    (8 * d ≤ durationMax →
      Fibonacci.value (Fibonacci.exact d) 0 = d ∧
      Fibonacci.value (Fibonacci.exact d) 1 = d ∧
      Fibonacci.value (Fibonacci.exact d) 2 = 2 * d ∧
      Fibonacci.value (Fibonacci.exact d) 3 = 3 * d ∧
      Fibonacci.value (Fibonacci.exact d) 4 = 5 * d ∧
      Fibonacci.value (Fibonacci.exact d) 5 = 8 * d) ∧
    (∀ n, Fibonacci.value (Fibonacci.exact d) n = durationMax →
      ∀ m, n ≤ m → Fibonacci.value (Fibonacci.exact d) m = durationMax) := by
  refine ⟨fun n => fib_recurrence _ n, ?_, ?_⟩
  · intro h
    have h2 : Fibonacci.value (Fibonacci.exact d) 2 =
        saturatingAdd d d := rfl
    have h3 : Fibonacci.value (Fibonacci.exact d) 3 =
        saturatingAdd d (saturatingAdd d d) := rfl
    have h4 : Fibonacci.value (Fibonacci.exact d) 4 =
        saturatingAdd (saturatingAdd d d)
          (saturatingAdd d (saturatingAdd d d)) := rfl
    have h5 : Fibonacci.value (Fibonacci.exact d) 5 =
        saturatingAdd (saturatingAdd d (saturatingAdd d d))
          (saturatingAdd (saturatingAdd d d)
            (saturatingAdd d (saturatingAdd d d))) := rfl
    refine ⟨rfl, rfl, ?_, ?_, ?_, ?_⟩
    · rw [h2]; simp only [saturatingAdd]; omega
    · rw [h3]; simp only [saturatingAdd]; omega
    · rw [h4]; simp only [saturatingAdd]; omega
    · rw [h5]; simp only [saturatingAdd]; omega
  · intro n h m hnm
    induction m with
    | zero =>
      have hz : n = 0 := by omega
      subst hz
      exact h
    | succ m ih =>
      by_cases hm : n ≤ m
      · exact fib_sat_step d m (ih hm)
      · have hn : n = m + 1 := by omega
        subst hn
        exact h

/-- Witness for C8: base 10 starts `10, 10, 20, 30, 50, 80`; base
`Duration::MAX` stays at the maximum. -/
theorem fibonacci_exact_behaviour_witness :
    Fibonacci.value (Fibonacci.exact 10) 5 = 80 ∧
    Fibonacci.value (Fibonacci.exact durationMax) 2 = durationMax := by
  constructor
  · have h := (fibonacci_exact_behaviour 10).2.1 (by decide)
    simpa using h.2.2.2.2.2
  · exact (fibonacci_exact_behaviour durationMax).2.2 0 rfl 2 (by omega)

/-- Helper: for an exact exponential whose `n`-th ideal value is still
representable, every state up to `n` holds exactly `base * f ^ k`. -/
theorem exp_stateN_exact (base f : ℚ) (hb : 0 ≤ base) (hf : 1 ≤ f)
    (n : Nat) (hn : base * f ^ n < maxSecsQ) :
    ∀ k, k ≤ n →
      Exponential.stateN (Exponential.exact_with_factor base f) k =
        ⟨base * f ^ k, f⟩ := by
  intro k
  induction k with
  | zero =>
    intro _
    simp [Exponential.stateN, Exponential.exact_with_factor]
  | succ k ih =>
    intro hk
    have hstate := ih (by omega)
    show ((Exponential.stateN _ k).pull).2 = _
    rw [hstate]
    have hf0 : (0 : ℚ) ≤ f := by linarith
    have hpos : (0 : ℚ) ≤ base * f ^ (k + 1) :=
      mul_nonneg hb (pow_nonneg hf0 _)
    have hmono : base * f ^ (k + 1) ≤ base * f ^ n :=
      mul_le_mul_of_nonneg_left (pow_le_pow_right₀ hf hk) hb
    have hlt : base * f ^ (k + 1) < maxSecsQ := lt_of_le_of_lt hmono hn
    have harr : base * f ^ k * f = base * f ^ (k + 1) := by ring
    simp [Exponential.pull, try_from_secs_f64, harr, hpos, hlt]

/-- C9: a pull of `Exponential` returns the current value and multiplies
the current value by the factor, except that a product that would be
negative or not representable as a duration leaves the state unchanged
(saturation); consequently an exact exponential with factor at least one
and no overflow yields exactly `base * f ^ n` on its `n`-th pull. -/
theorem exponential_growth (base f : ℚ) :
    (∀ s : Exponential, (s.pull).1 = s.current) ∧
    (∀ s : Exponential, 0 ≤ s.current * s.factor →
      s.current * s.factor < maxSecsQ →
      (s.pull).2 = ⟨s.current * s.factor, s.factor⟩) ∧
    (∀ s : Exponential, ¬ (0 ≤ s.current * s.factor ∧
      s.current * s.factor < maxSecsQ) → (s.pull).2 = s) ∧
    (0 ≤ base → 1 ≤ f → ∀ n, base * f ^ n < maxSecsQ →
      Exponential.value (Exponential.exact_with_factor base f) n =
        base * f ^ n) := by
  refine ⟨fun s => rfl, ?_, ?_, ?_⟩
  · intro s h1 h2
    simp [Exponential.pull, try_from_secs_f64, h1, h2]
  · intro s h
    show (⟨(try_from_secs_f64 (s.current * s.factor)).getD s.current,
      s.factor⟩ : Exponential) = s
    simp only [try_from_secs_f64, if_neg h, Option.getD_none]
  · intro hb hf n hn
    have h := exp_stateN_exact base f hb hf n hn n le_rfl
    show ((Exponential.stateN _ n).pull).1 = _
    rw [h]
    rfl

/-- Witness for C9: base 1 second, factor 2: the third pull yields 8
seconds; and a state already at the maximum with factor 1 over the bound
is left unchanged. -/
theorem exponential_growth_witness :
    Exponential.value (Exponential.exact_with_factor 1 2) 3 = 8 ∧
    (Exponential.pull ⟨maxSecsQ, 1⟩).2 = ⟨maxSecsQ, 1⟩ := by
  constructor
  · have h := (exponential_growth 1 2).2.2.2 (by norm_num) (by norm_num) 3
      (by norm_num [maxSecsQ])
    norm_num at h
    exact h
  · exact (exponential_growth 1 2).2.2.1 ⟨maxSecsQ, 1⟩
      (by norm_num [maxSecsQ])

/-- C10: the `From` conversion for `Fixed` stores the duration exactly,
consumes no randomness and yields exactly that duration on every pull,
whereas `Fixed::new` consumes one random draw and stores the jittered
duration, and the `From` conversions for `Exponential` and `Fibonacci`
delegate to their jittering `new` constructors; at draw one half and base
4 the jittered and exact constructions differ. -/
theorem fixed_from_duration_exact (d : Nat) (dq : ℚ) (rng : Nat → ℚ)
    (pos : Nat) :
    Fixed.fromDuration d rng pos = (⟨d⟩, pos) ∧
    (∀ n, Fixed.value ⟨d⟩ n = d) ∧
    Fixed.new d rng pos = (⟨jitter d (rng pos)⟩, pos + 1) ∧
    Exponential.fromDuration dq rng pos = Exponential.new dq rng pos ∧
    Fibonacci.fromDuration d rng pos = Fibonacci.new d rng pos ∧
    (Fixed.new 4 (fun _ => (1 : ℚ) / 2) 0).1 ≠
      (Fixed.fromDuration 4 (fun _ => (1 : ℚ) / 2) 0).1 := by
  refine ⟨rfl, ?_, rfl, rfl, rfl, ?_⟩
  · intro n
    induction n with
    | zero => rfl
    | succ n ih => exact ih
  · simp only [Fixed.new, Fixed.fromDuration, ne_eq, Fixed.mk.injEq]
    norm_num [jitter]
    decide

/-- Helper: the retry loop of `RetryHandle::retry` performs no durable
writes of its own — its events are invocations and sleeps only. -/
theorem retryLoop_no_saves (op : Nat → OperationResult O E) :
    ∀ (delays : List Nat) (i : Nat),
      List.filterMap saveOf (retryLoop op i delays).1 = [] := by
  intro delays
  induction delays with
  | nil =>
    intro i
    cases h : op i <;> simp [retryLoop, h, saveOf]
  | cons d rest ih =>
    intro i
    cases h : op i <;> simp [retryLoop, h, saveOf, ih]

/-- C5: a completed `RetryHandle::retry` episode performs exactly two
durable writes: `Pending`, as the very first event and hence before any
invocation, and then exactly one terminal status — `Success(v)` when the
protocol ended `Ok(v)`, `Failure(e)` when it ended with a permanent error
or by exhausting the delay sequence — however many attempts happened in
between. -/
theorem retry_handle_two_saves (delays : List Nat)
    (op : Nat → OperationResult O E) :
    (RetryHandle.retry delays op).head? = some (.save .Pending) ∧
    List.filterMap saveOf (RetryHandle.retry delays op) =
      [Status.Pending, statusOfResult (retryLoop op 0 delays).2] ∧
    (∀ v, (retryLoop op 0 delays).2 = .ok v →
      List.filterMap saveOf (RetryHandle.retry delays op) =
        [Status.Pending, Status.Success v]) ∧
    (∀ e, (retryLoop op 0 delays).2 = .error e →
      List.filterMap saveOf (RetryHandle.retry delays op) =
        [Status.Pending, Status.Failure e]) := by
  have hsaves : List.filterMap saveOf (RetryHandle.retry delays op) =
      [Status.Pending, statusOfResult (retryLoop op 0 delays).2] := by
    simp [RetryHandle.retry, saveOf, retryLoop_no_saves]
  refine ⟨rfl, hsaves, ?_, ?_⟩
  · intro v hv
    rw [hsaves, hv]
    rfl
  · intro e he
    rw [hsaves, he]
    rfl

/-- Witness for C5: a twice-transiently-failing operation with three
delays records `Pending` then `Success(42)`; with no delays it records
`Pending` then `Failure(0)`. -/
theorem retry_handle_two_saves_witness :
    List.filterMap saveOf (RetryHandle.retry [7, 8, 9] twoRetriesThenOk) =
      [Status.Pending, Status.Success 42] ∧
    List.filterMap saveOf (RetryHandle.retry [] twoRetriesThenOk) =
      [Status.Pending, Status.Failure 0] := by
  constructor
  · exact (retry_handle_two_saves [7, 8, 9] twoRetriesThenOk).2.2.1 42 rfl
  · exact (retry_handle_two_saves [] twoRetriesThenOk).2.2.2 0 rfl

/-- C6: in the locking discipline of `retry_stream`, after episode A has
acquired the shared mutex and performed its first two protocol actions
(the `Pending` write and one invocation), it still owns the lock while
mid-episode — about to perform its inter-attempt sleep — and episode B
can make no step at all, while A itself still can: the guard of
`handle.lock().await.retry(...).await` is held across the entire episode,
so one episode's sleep blocks every other episode. -/
theorem retry_stream_lock_blocks_episode :
    runSched 4 [false, false, false] lockInit = some ⟨some false, 3, 0⟩ ∧
    (1 ≤ 3 ∧ 3 < 4) ∧
    epStep 4 true ⟨some false, 3, 0⟩ = none ∧
    epStep 4 false ⟨some false, 3, 0⟩ = some ⟨some false, 4, 0⟩ := by
  decide

end RetryBlock
